import Mathlib

/-!
Verification of the MLCanvas graph-to-program compiler (src/app.jsx).

The development shallowly embeds the compiler core of the application:
the JSON-like parameter values carried by nodes, the node/edge graph
model, the topological orderer (Kahn's algorithm, `topologicalSort`),
the graph validator (`validateGraph`), the PyTorch code emitter
(`generatePyTorchCode`) and the build/download handlers.

JavaScript `Map` objects are modelled as association lists (`PMap`)
with `mget`/`mset` mirroring `Map.get`/`Map.set`; JavaScript numbers
are carried by their display string (the emitter only ever prints
them); the `while` loop of the orderer becomes the well-founded
recursion `kahnLoop`, together with an explicitly fuelled variant
`kahnLoopFuel` used both to state the termination bound and to
evaluate the orderer on concrete graphs.
-/

namespace MLCanvas

/-- JSON-like parameter values (the `params` field of a node).
A number is carried by the display string JavaScript would print for
it (for example `1e-3` displays as "0.001"); the emitter never
computes with numbers, it only prints them. -/
inductive JVal where
  | jnum (repr : String)
  | jstr (s : String)
  | jbool (b : Bool)
  | jnull
  | jarr (xs : List JVal)
  | jobj (fields : List (String × JVal))

/-- Escape of one character inside a JSON string literal, as
JSON.stringify performs it for the characters we model. -/
def escapeJsonChar (c : Char) : String :=
  if c = '"' then "\\\""
  else if c = '\\' then "\\\\"
  else if c = '\n' then "\\n"
  else if c = '\t' then "\\t"
  else if c = '\r' then "\\r"
  else String.singleton c

/-- Escape a whole string for inclusion in a JSON string literal. -/
def escapeJson (s : String) : String :=
  String.join (s.data.map escapeJsonChar)

/-- Quoted JSON string literal. -/
def quoteJson (s : String) : String :=
  "\"" ++ escapeJson s ++ "\""

mutual

/-- Embedding of JSON.stringify(v, null, 2): two-space indented
pretty-printing; `ind` is the indentation accumulated so far. -/
def jsonStringify (ind : String) : JVal → String
  | .jnum r => r
  | .jstr s => quoteJson s
  | .jbool b => if b then "true" else "false"
  | .jnull => "null"
  | .jarr xs =>
    match xs with
    | [] => "[]"
    | _ => "[\n" ++ String.intercalate ",\n" (jsonArr (ind ++ "  ") xs) ++ "\n" ++ ind ++ "]"
  | .jobj fs =>
    match fs with
    | [] => "\x7b\x7d"
    | _ => "\x7b\n" ++ String.intercalate ",\n" (jsonFields (ind ++ "  ") fs) ++ "\n" ++ ind ++ "\x7d"

/-- Array items of JSON.stringify, each on its own indented line. -/
def jsonArr (ind : String) : List JVal → List String
  | [] => []
  | v :: vs => (ind ++ jsonStringify ind v) :: jsonArr ind vs

/-- Object fields of JSON.stringify, each on its own indented line. -/
def jsonFields (ind : String) : List (String × JVal) → List String
  | [] => []
  | (k, v) :: fs => (ind ++ quoteJson k ++ ": " ++ jsonStringify ind v) :: jsonFields ind fs

end

mutual

/-- Conversion of a value to text inside a JavaScript template
literal, as in the source's string interpolations. -/
def jvalInterp : JVal → String
  | .jnum r => r
  | .jstr s => s
  | .jbool b => if b then "true" else "false"
  | .jnull => "null"
  | .jarr xs => String.intercalate "," (jvalInterpList xs)
  | .jobj _ => "[object Object]"

/-- Array elements under Array.prototype.toString: joined by commas,
with null printed as the empty string. -/
def jvalInterpList : List JVal → List String
  | [] => []
  | .jnull :: vs => "" :: jvalInterpList vs
  | v :: vs => jvalInterp v :: jvalInterpList vs

end

/-- Closed enumeration of node types (NODE_TYPES in the source). -/
inductive NodeType where
  | Data | Transform | Split | Model | Loss | Optimizer | Metric | Trainer | Composite
deriving DecidableEq, Repr

/-- Payload of a node: display label, type tag and the JSON params
object. The label and params are optional because imported snapshots
may omit them; the `summary` and `position` fields are ignored by the
compiler and not modelled. -/
structure NodeData where
  label : Option String
  type : NodeType
  params : Option (List (String × JVal))

/-- A node of the pipeline graph. -/
structure Node where
  id : String
  data : NodeData

/-- A directed edge between node identifiers. -/
structure Edge where
  source : String
  target : String
deriving DecidableEq, Repr

/-- Association-list model of a JavaScript Map keyed by strings. -/
abbrev PMap (α : Type) := List (String × α)

/-- Map.get: the most recently set binding of a key, if any. -/
def mget {α : Type} (m : PMap α) (k : String) : Option α :=
  (m.find? (fun p => p.1 == k)).map (fun p => p.2)

/-- Map.set: bind a key, replacing any previous binding. -/
def mset {α : Type} (m : PMap α) (k : String) (v : α) : PMap α :=
  (k, v) :: m.filter (fun p => p.1 != k)

/-- Sum of the positive incoming counters; the termination measure of
the orderer's loop (together with the queue length). -/
def posSum : PMap Int → Nat
  | [] => 0
  | p :: t => p.2.toNat + posSum t

/-- One in-degree decrement of Kahn's algorithm, as performed for one
entry u of out.get(v): incoming.set(u, (incoming.get(u) || 0) - 1),
then enqueue u when the new value is exactly 0. -/
def kahnStep (inc : PMap Int) (q : List String) (u : String) : PMap Int × List String :=
  let inc2 := mset inc u (((mget inc u).getD 0) - 1)
  if ((mget inc2 u).getD 0) == 0 then (inc2, q ++ [u]) else (inc2, q)

/-- The forEach over out.get(v) in the loop body. -/
def kahnFold (L : List String) (inc : PMap Int) (q : List String) : PMap Int × List String :=
  L.foldl (fun p u => kahnStep p.1 p.2 u) (inc, q)

/-- The incoming map before edges are processed: every node id bound
to 0 (new Map(nodes.map((n) => [n.id, 0]))). -/
def initIncoming (nodes : List Node) : PMap Int :=
  nodes.foldl (fun m n => mset m n.id 0) []

/-- The out-adjacency map before edges are processed: every node id
bound to the empty list. -/
def initOut (nodes : List Node) : PMap (List String) :=
  nodes.foldl (fun m n => mset m n.id ([] : List String)) []

/-- One iteration of edges.forEach in topologicalSort: ensure the
source has an out-list, append the target to it, and increment the
target's in-degree. At this stage all counters are nonnegative, so
the source's (x || 0) reads agree with getD 0. -/
def edgeStep (acc : PMap Int × PMap (List String)) (e : Edge) : PMap Int × PMap (List String) :=
  let out1 := if (mget acc.2 e.source).isSome then acc.2 else mset acc.2 e.source []
  let out2 := mset out1 e.source (((mget out1 e.source).getD []) ++ [e.target])
  let inc2 := mset acc.1 e.target (((mget acc.1 e.target).getD 0) + 1)
  (inc2, out2)

/-- The incoming/out maps after the edges.forEach bookkeeping pass. -/
def initialMaps (nodes : List Node) (edges : List Edge) : PMap Int × PMap (List String) :=
  edges.foldl edgeStep (initIncoming nodes, initOut nodes)

/-- The initial ready queue: nodes whose processed in-degree is 0, in
node insertion order. -/
def initialQueue (nodes : List Node) (inc : PMap Int) : List String :=
  (nodes.filter (fun n => ((mget inc n.id).getD 0) == 0)).map (fun n => n.id)

theorem posSum_nil : posSum [] = 0 := rfl

theorem posSum_cons (p : String × Int) (t : PMap Int) :
    posSum (p :: t) = p.2.toNat + posSum t := rfl

theorem posSum_filter_le (m : PMap Int) (p : String × Int → Bool) :
    posSum (m.filter p) ≤ posSum m := by
  induction m with
  | nil => simp [posSum_nil]
  | cons h t ih =>
    simp only [List.filter]
    cases hp : p h with
    | true => simp only [posSum_cons]; omega
    | false => simp only [posSum_cons]; omega

theorem posSum_mget_filter (m : PMap Int) (u : String) :
    ((mget m u).getD 0).toNat + posSum (m.filter (fun p => p.1 != u)) ≤ posSum m := by
  induction m with
  | nil => simp [mget, posSum_nil]
  | cons h t ih =>
    by_cases hk : h.1 = u
    · simp only [mget, List.find?, hk, beq_self_eq_true, Option.map_some', Option.getD_some,
        List.filter, bne_self_eq_false, posSum_cons]
      have h2 := posSum_filter_le t (fun p => p.1 != u)
      omega
    · have hbne : (h.1 != u) = true := by simp [bne, hk]
      have hbeq : (h.1 == u) = false := by simp [hk]
      simp only [mget, List.find?, hbeq, List.filter, hbne, posSum_cons] at *
      omega

theorem mget_mset_self {α : Type} (m : PMap α) (k : String) (v : α) :
    mget (mset m k v) k = some v := by
  simp [mget, mset, List.find?]

theorem kahnStep_measure (inc : PMap Int) (q : List String) (u : String) :
    posSum (kahnStep inc q u).1 + (kahnStep inc q u).2.length ≤ posSum inc + q.length := by
  unfold kahnStep
  have hself := mget_mset_self inc u (((mget inc u).getD 0) - 1)
  have hps : posSum (mset inc u (((mget inc u).getD 0) - 1)) =
      (((mget inc u).getD 0) - 1).toNat + posSum (inc.filter (fun p => p.1 != u)) := by
    simp [mset, posSum_cons]
  have hle := posSum_mget_filter inc u
  by_cases hz : ((mget (mset inc u (((mget inc u).getD 0) - 1)) u).getD 0) == 0
  · simp only [hz, if_pos]
    rw [hself] at hz
    simp only [Option.getD_some, beq_iff_eq] at hz
    simp only [List.length_append, List.length_cons, List.length_nil, hps]
    omega
  · simp only [hz]
    simp only [Bool.false_eq_true, if_false, hps]
    omega

theorem kahnFold_measure (L : List String) (inc : PMap Int) (q : List String) :
    posSum (kahnFold L inc q).1 + (kahnFold L inc q).2.length ≤ posSum inc + q.length := by
  induction L generalizing inc q with
  | nil => simp [kahnFold]
  | cons u L ih =>
    have h1 := kahnStep_measure inc q u
    have h2 := ih (kahnStep inc q u).1 (kahnStep inc q u).2
    have he : ((kahnStep inc q u).1, (kahnStep inc q u).2) = kahnStep inc q u := rfl
    simp only [kahnFold, List.foldl, he] at *
    omega

/-- The while loop of topologicalSort: dequeue v from the front,
append it to the result, and run the forEach over out.get(v) || [].
Termination is by the measure posSum inc + q.length, which each
iteration strictly decreases. -/
def kahnLoop (out : PMap (List String)) : PMap Int → List String → List String → List String
  | _, [], res => res
  | inc, v :: rest, res =>
    kahnLoop out (kahnFold ((mget out v).getD []) inc rest).1
      (kahnFold ((mget out v).getD []) inc rest).2 (res ++ [v])
termination_by inc q _ => posSum inc + q.length
decreasing_by
  have h := kahnFold_measure ((mget out v).getD []) inc rest
  simp only [List.length_cons]
  omega

/-- The same loop with an explicit iteration budget; it returns none
when the budget runs out before the queue drains. -/
def kahnLoopFuel (out : PMap (List String)) :
    Nat → PMap Int → List String → List String → Option (List String)
  | _, _, [], res => some res
  | 0, _, _ :: _, _ => none
  | fuel + 1, inc, v :: rest, res =>
    kahnLoopFuel out fuel (kahnFold ((mget out v).getD []) inc rest).1
      (kahnFold ((mget out v).getD []) inc rest).2 (res ++ [v])

/-- Embedding of topologicalSort(nodes, edges). -/
def topologicalSort (nodes : List Node) (edges : List Edge) : List String :=
  kahnLoop (initialMaps nodes edges).2 (initialMaps nodes edges).1
    (initialQueue nodes (initialMaps nodes edges).1) []

/-- topologicalSort with an explicit iteration budget for the loop. -/
def topologicalSortFuel (fuel : Nat) (nodes : List Node) (edges : List Edge) :
    Option (List String) :=
  kahnLoopFuel (initialMaps nodes edges).2 fuel (initialMaps nodes edges).1
    (initialQueue nodes (initialMaps nodes edges).1) []

/-- Word characters of the JavaScript regular expression \W (ASCII
letters, digits and underscore). -/
def isWordChar (c : Char) : Bool :=
  c.isAlpha || c.isDigit || c == '_'

/-- Replace every maximal run of non-word characters by one
underscore, as label.replace(/\W+/g, "_") does. The boolean records
whether the previous character belonged to such a run. -/
def sanitizeAux : Bool → List Char → List Char
  | _, [] => []
  | prevNW, c :: rest =>
    if isWordChar c then c :: sanitizeAux false rest
    else if prevNW then sanitizeAux true rest
    else '_' :: sanitizeAux true rest

/-- Identifier derivation from a label. -/
def sanitizeLabel (s : String) : String :=
  String.mk (sanitizeAux false s.data)

/-- The pattern n.data.label?.replace(/\W+/g, "_") || fallback: the
fallback is used when the label is absent or sanitizes to the empty
string. -/
def deriveName (label : Option String) (fallback : String) : String :=
  match label with
  | none => fallback
  | some l => if sanitizeLabel l = "" then fallback else sanitizeLabel l

/-- Split a string at every occurrence of one character, as
JavaScript's s.split(c) does for a one-character separator. -/
def splitCharAux (c : Char) : List Char → List Char → List String
  | [], acc => [String.mk acc.reverse]
  | d :: rest, acc =>
    if d == c then String.mk acc.reverse :: splitCharAux c rest []
    else splitCharAux c rest (d :: acc)

/-- JavaScript s.split("\n"). -/
def splitNewlines (s : String) : List String :=
  splitCharAux '\n' s.data []

/-- The params comment of a block:
"# params: " + params.split("\n").join("\n# "). -/
def paramsComment (s : String) : String :=
  "# params: " ++ String.intercalate "\n# " (splitNewlines s)

/-- JSON.stringify(n.data.params || -empty object-, null, 2). -/
def paramsDump (p : Option (List (String × JVal))) : String :=
  jsonStringify "" (JVal.jobj (p.getD []))

/-- Template interpolation of an optional label: JavaScript prints
undefined as the string "undefined". -/
def labelInterp (label : Option String) : String :=
  label.getD "undefined"

/-- Object property lookup, later bindings shadowing earlier ones. -/
def lookupKey (fields : List (String × JVal)) (k : String) : Option JVal :=
  fields.foldl (fun acc f => if f.1 == k then some f.2 else acc) none

/-- The nullish-coalescing operator v ?? d: the default applies
exactly when the value is absent or null. -/
def nullishOr (v : Option JVal) (d : JVal) : JVal :=
  match v with
  | none => d
  | some .jnull => d
  | some w => w

/-- Header and device preamble, emitted unconditionally. -/
def headerLines : List String :=
  ["# Auto-generated by ML Pipeline Visual Board",
   "import torch",
   "import torch.nn as nn",
   "import torch.optim as optim",
   "from torch.utils.data import DataLoader",
   "\n",
   "# ---- Config ----",
   "device = \"cuda\" if torch.cuda.is_available() else \"cpu\"",
   "\n"]

/-- Data block: one placeholder binding and a params comment per
Data node, in dependency order; nothing when there are none. -/
def dataBlock (dataNodes : List Node) : List String :=
  if dataNodes.length = 0 then []
  else
    (dataNodes.enum.flatMap (fun p =>
      let n := p.2
      let name := deriveName n.data.label ("dataset_" ++ toString p.1)
      ["# Data: " ++ labelInterp n.data.label,
       name ++ " = None  # TODO: load your dataset here",
       paramsComment (paramsDump n.data.params)])) ++ ["\n"]

/-- Transform block: identity placeholder per Transform node. -/
def tfBlock (tfNodes : List Node) : List String :=
  if tfNodes.length = 0 then []
  else
    "# Transforms" ::
    (tfNodes.enum.flatMap (fun p =>
      let n := p.2
      let name := deriveName n.data.label ("transform_" ++ toString p.1)
      [name ++ " = nn.Identity()  # TODO: implement transform",
       paramsComment (paramsDump n.data.params)])) ++ ["\n"]

/-- The default split parameters of the source. -/
def splitDefaultParams : List (String × JVal) :=
  [("train", .jnum "0.8"), ("val", .jnum "0.1"), ("test", .jnum "0.1"), ("shuffle", .jbool true)]

/-- Split block for the first Split node, if any: the whole default
object replaces the params only when they are absent (the || applies
to the object itself, not per key). -/
def splitBlock : Option Node → List String
  | none => []
  | some n =>
    let p := n.data.params.getD splitDefaultParams
    ["# Split",
     "train_ds, val_ds, test_ds = None, None, None  # TODO: split your dataset according to params",
     paramsComment (jsonStringify "" (.jobj p)),
     "\n"]

/-- Model block for the first Model node, if any. -/
def modelBlock : Option Node → List String
  | none => []
  | some n =>
    let p := n.data.params.getD []
    ["# Model: " ++ (match n.data.label with
       | some l => if l = "" then "Model" else l
       | none => "Model"),
     "class GeneratedModel(nn.Module):",
     "    def __init__(self):",
     "        super().__init__()",
     "        # TODO: build layers based on params",
     "        self.net = nn.Sequential(nn.Flatten(), nn.Linear(784, 128), nn.ReLU(), nn.Linear(128, 10))",
     "    def forward(self, x):",
     "        return self.net(x)",
     "model = GeneratedModel().to(device)",
     paramsComment (jsonStringify "" (.jobj p)),
     "\n"]

/-- Loss block for the first Loss node, if any. -/
def lossBlock : Option Node → List String
  | none => []
  | some _ => ["# Loss", "criterion = nn.CrossEntropyLoss()", "\n"]

/-- Optimizer block for the first Optimizer node, if any. The whole
default object applies only when params is absent; p.lr ?? 1e-3
defaults only on absent or null lr, and any other value is
interpolated as is. -/
def optimizerBlock : Option Node → List String
  | none => []
  | some n =>
    let p := n.data.params.getD [("lr", .jnum "0.001")]
    ["# Optimizer",
     "optimizer = optim.Adam(model.parameters(), lr=" ++
       jvalInterp (nullishOr (lookupKey p "lr") (.jnum "0.001")) ++ ")",
     "\n"]

/-- Trainer block for the first Trainer node, if any. -/
def trainerBlock : Option Node → List String
  | none => []
  | some n =>
    let p := n.data.params.getD [("epochs", .jnum "3"), ("batch_size", .jnum "64")]
    let bs := jvalInterp (nullishOr (lookupKey p "batch_size") (.jnum "64"))
    let ep := jvalInterp (nullishOr (lookupKey p "epochs") (.jnum "3"))
    ["# Dataloaders",
     "train_loader = DataLoader(train_ds, batch_size=" ++ bs ++ ", shuffle=True)  # TODO",
     "val_loader = DataLoader(val_ds, batch_size=" ++ bs ++ ")  # TODO",
     "\n",
     "# Train Loop",
     "for epoch in range(" ++ ep ++ "):",
     "    model.train()",
     "    for x, y in train_loader:",
     "        x, y = x.to(device), y.to(device)",
     "        optimizer.zero_grad()",
     "        out = model(x)",
     "        loss = criterion(out, y)",
     "        loss.backward()",
     "        optimizer.step()",
     "    print(f\"epoch \x7bepoch+1\x7d: ok\")"]

/-- Metrics block, present when at least one Metric node exists. -/
def metricsBlock (metricNodes : List Node) : List String :=
  if metricNodes.length = 0 then []
  else
    ["\n# Metrics (evaluate on val_loader)",
     "model.eval()",
     "correct = 0; total = 0",
     "with torch.no_grad():",
     "    for x, y in val_loader:",
     "        x, y = x.to(device), y.to(device)",
     "        out = model(x)",
     "        pred = out.argmax(dim=1)",
     "        correct += (pred == y).sum().item()",
     "        total += y.size(0)",
     "print(\"val/accuracy:\", correct/total if total else 0.0)"]

/-- Trailing persistence statement. -/
def saveBlock (projectName : String) : List String :=
  ["\n# Save model",
   "torch.save(model.state_dict(), \"" ++ projectName ++ ".pt\")"]

/-- Object.fromEntries(nodes.map((n) => [n.id, n])) followed by a
property access: the last node with the given id, if any. -/
def lookupById (nodes : List Node) (i : String) : Option Node :=
  nodes.foldl (fun acc n => if n.id == i then some n else acc) none

/-- order.map((id) => byId[id]).filter(Boolean): the dependency order
resolved to nodes, dropping identifiers that match no node. -/
def orderedNodes (nodes : List Node) (edges : List Edge) : List Node :=
  (topologicalSort nodes edges).filterMap (lookupById nodes)

/-- Embedding of generatePyTorchCode as the list of pushed lines. -/
def generatePyTorchLines (nodes : List Node) (edges : List Edge) (projectName : String) :
    List String :=
  let ons := orderedNodes nodes edges
  headerLines
    ++ dataBlock (ons.filter (fun n => n.data.type == NodeType.Data))
    ++ tfBlock (ons.filter (fun n => n.data.type == NodeType.Transform))
    ++ splitBlock (ons.find? (fun n => n.data.type == NodeType.Split))
    ++ modelBlock (ons.find? (fun n => n.data.type == NodeType.Model))
    ++ lossBlock (ons.find? (fun n => n.data.type == NodeType.Loss))
    ++ optimizerBlock (ons.find? (fun n => n.data.type == NodeType.Optimizer))
    ++ trainerBlock (ons.find? (fun n => n.data.type == NodeType.Trainer))
    ++ metricsBlock (ons.filter (fun n => n.data.type == NodeType.Metric))
    ++ saveBlock projectName

/-- Embedding of generatePyTorchCode(nodes, edges, projectName):
the pushed lines joined with newlines. -/
def generatePyTorchCode (nodes : List Node) (edges : List Edge) (projectName : String) :
    String :=
  String.intercalate "\n" (generatePyTorchLines nodes edges projectName)

/-- The record returned by validateGraph. -/
structure ValidationResult where
  ok : Bool
  errors : List String
deriving DecidableEq, Repr

/-- Number of nodes of a given type. -/
def typeCount (nodes : List Node) (t : NodeType) : Nat :=
  (nodes.filter (fun n => n.data.type == t)).length

/-- Embedding of validateGraph: the three required-stage checks are
collected first; when any fails the function returns early and the
cycle check is never evaluated. -/
def validateGraph (nodes : List Node) (edges : List Edge) : ValidationResult :=
  let errors :=
    (if typeCount nodes NodeType.Model = 0 then ["Нет узла Model"] else [])
    ++ (if typeCount nodes NodeType.Loss = 0 then ["Нет узла Loss"] else [])
    ++ (if typeCount nodes NodeType.Optimizer = 0 then ["Нет узла Optimizer"] else [])
  if errors.length ≠ 0 then { ok := false, errors := errors }
  else
    let order := topologicalSort nodes edges
    let errors2 :=
      if order.length ≠ nodes.length then errors ++ ["Обнаружен цикл в графе"] else errors
    { ok := errors2.isEmpty, errors := errors2 }

/-- Embedding of buildCode: the text stored into the code state by
one click of the build button. -/
def buildCode (nodes : List Node) (edges : List Edge) (projectName : String) : String :=
  let v := validateGraph nodes edges
  if v.ok = false then
    "# Ошибки графа:\n# - " ++ String.intercalate "\n# - " v.errors
  else generatePyTorchCode nodes edges projectName

/-- Embedding of the text downloaded by one click of the download
button. The handler reads the code state captured by its closure;
the buildCode() call it makes when that state is empty updates the
state only for later renders, so the downloaded text falls back to
code || generatePyTorchCode(nodes, edges, projectName) with the
captured (stale) code value. -/
def downloadCodeText (code : String) (nodes : List Node) (edges : List Edge)
    (projectName : String) : String :=
  if code ≠ "" then code else generatePyTorchCode nodes edges projectName

/-! Fuelled evaluation of the orderer: the loop drains within
posSum inc + q.length iterations, hence within nodes + edges. -/

theorem kahnLoopFuel_eq (out : PMap (List String)) (fuel : Nat) :
    ∀ inc q res, posSum inc + q.length ≤ fuel →
      kahnLoopFuel out fuel inc q res = some (kahnLoop out inc q res) := by
  induction fuel with
  | zero =>
    intro inc q res h
    match q with
    | [] => simp [kahnLoopFuel, kahnLoop]
    | v :: rest => simp at h
  | succ fuel ih =>
    intro inc q res h
    match q with
    | [] => simp [kahnLoopFuel, kahnLoop]
    | v :: rest =>
      have hm := kahnFold_measure ((mget out v).getD []) inc rest
      simp only [List.length_cons] at h
      rw [kahnLoopFuel, kahnLoop, ih _ _ _ (by omega)]

/-- Current in-degree counter of an identifier (0 when absent). -/
def incVal (inc : PMap Int) (x : String) : Int :=
  (mget inc x).getD 0

theorem find?_filter_ne {α : Type} (m : PMap α) (k k' : String) (h : k' ≠ k) :
    (m.filter (fun p => p.1 != k)).find? (fun p => p.1 == k') =
      m.find? (fun p => p.1 == k') := by
  induction m with
  | nil => rfl
  | cons a t ih =>
    by_cases ha : a.1 = k'
    · have h1 : (a.1 != k) = true := by simp [bne, ha, h]
      have h2 : (a.1 == k') = true := by simp [ha]
      simp only [List.filter, h1, List.find?, h2]
    · have h2 : (a.1 == k') = false := by simp [ha]
      by_cases hk : a.1 = k
      · have h1 : (a.1 != k) = false := by simp [bne, hk]
        simp only [List.filter, h1, List.find?, h2, ih]
      · have h1 : (a.1 != k) = true := by simp [bne, hk]
        simp only [List.filter, h1, List.find?, h2, ih]

theorem mget_mset_ne {α : Type} (m : PMap α) (k : String) (v : α) (k' : String)
    (h : k' ≠ k) : mget (mset m k v) k' = mget m k' := by
  have hk : (k == k') = false := by
    simp only [beq_eq_false_iff_ne, ne_eq]
    exact fun he => h he.symm
  simp only [mget, mset, List.find?, hk, find?_filter_ne m k k' h]

theorem incVal_mset_self (m : PMap Int) (k : String) (v : Int) :
    incVal (mset m k v) k = v := by
  simp [incVal, mget_mset_self]

theorem incVal_mset_ne (m : PMap Int) (k : String) (v : Int) (x : String) (h : x ≠ k) :
    incVal (mset m k v) x = incVal m x := by
  simp [incVal, mget_mset_ne m k v x h]

theorem incVal_initIncoming_aux (nodes : List Node) :
    ∀ m : PMap Int, (∀ y, incVal m y = 0) →
      ∀ y, incVal (nodes.foldl (fun m n => mset m n.id 0) m) y = 0 := by
  induction nodes with
  | nil => intro m hm y; exact hm y
  | cons n t ih =>
    intro m hm y
    simp only [List.foldl]
    refine ih (mset m n.id 0) ?_ y
    intro z
    by_cases hz : z = n.id
    · rw [hz]; exact incVal_mset_self m n.id 0
    · rw [incVal_mset_ne m n.id 0 z hz]; exact hm z

theorem incVal_initIncoming (nodes : List Node) (x : String) :
    incVal (initIncoming nodes) x = 0 :=
  incVal_initIncoming_aux nodes [] (fun _ => rfl) x

theorem posSum_mset (m : PMap Int) (k : String) (v : Int) :
    posSum (mset m k v) = v.toNat + posSum (m.filter (fun p => p.1 != k)) := rfl

theorem posSum_mset_le (m : PMap Int) (k : String) (d : Int) :
    posSum (mset m k (((mget m k).getD 0) + d)) ≤ posSum m + d.toNat := by
  rw [posSum_mset]
  have h1 := posSum_mget_filter m k
  omega

theorem posSum_initIncoming_aux (nodes : List Node) :
    ∀ m : PMap Int, posSum m = 0 →
      posSum (nodes.foldl (fun m n => mset m n.id 0) m) = 0 := by
  induction nodes with
  | nil => intro m hm; exact hm
  | cons n t ih =>
    intro m hm
    simp only [List.foldl]
    refine ih (mset m n.id 0) ?_
    have h1 := posSum_mget_filter m n.id
    rw [posSum_mset]
    omega

theorem posSum_initIncoming (nodes : List Node) :
    posSum (initIncoming nodes) = 0 :=
  posSum_initIncoming_aux nodes [] rfl

theorem posSum_edgeFold_le (edges : List Edge) :
    ∀ acc : PMap Int × PMap (List String),
      posSum (edges.foldl edgeStep acc).1 ≤ posSum acc.1 + edges.length := by
  induction edges with
  | nil => intro acc; simp
  | cons e t ih =>
    intro acc
    have h1 : posSum (edgeStep acc e).1 ≤ posSum acc.1 + 1 := by
      simp only [edgeStep]
      have := posSum_mset_le acc.1 e.target 1
      simpa using this
    have h2 := ih (edgeStep acc e)
    simp only [List.foldl, List.length_cons]
    omega

theorem initialQueue_length_le (nodes : List Node) (inc : PMap Int) :
    (initialQueue nodes inc).length ≤ nodes.length := by
  simp only [initialQueue, List.length_map]
  exact List.length_filter_le _ _

theorem topologicalSort_eq_of_fuel (nodes : List Node) (edges : List Edge) (fuel : Nat)
    (h : nodes.length + edges.length ≤ fuel) :
    topologicalSortFuel fuel nodes edges = some (topologicalSort nodes edges) := by
  unfold topologicalSortFuel topologicalSort
  apply kahnLoopFuel_eq
  have h1 := posSum_initIncoming nodes
  have h2 := posSum_edgeFold_le edges (initIncoming nodes, initOut nodes)
  have h3 := initialQueue_length_le nodes (initialMaps nodes edges).1
  simp only [initialMaps] at *
  omega

theorem topologicalSort_eval (nodes : List Node) (edges : List Edge) (r : List String)
    (h : topologicalSortFuel (nodes.length + edges.length) nodes edges = some r) :
    topologicalSort nodes edges = r := by
  have h2 := topologicalSort_eq_of_fuel nodes edges (nodes.length + edges.length) le_rfl
  rw [h2] at h
  exact Option.some.inj h

/-- Acyclicity of an edge set: some ranking of identifiers strictly
increases along every edge. Over a finite graph this is equivalent to
the absence of directed cycles. -/
def EdgeAcyclic (edges : List Edge) : Prop :=
  ∃ rank : String → Nat, ∀ e ∈ edges, rank e.source < rank e.target

/-! Concrete graphs used for counterexamples and witnesses. -/

/-- The Data node a of the cycle example. -/
def exNodeA : Node := ⟨"a", { label := some "A", type := NodeType.Data, params := some [] }⟩

/-- The Data node b of the cycle example. -/
def exNodeB : Node := ⟨"b", { label := some "B", type := NodeType.Data, params := some [] }⟩

/-- Two Data nodes; with exCycleEdges they form a two-cycle. -/
def exCycleNodes : List Node := [exNodeA, exNodeB]

/-- The two-cycle a→b→a. -/
def exCycleEdges : List Edge := [⟨"a", "b"⟩, ⟨"b", "a"⟩]

/-- The single chain edge a→b over exCycleNodes. -/
def exChainEdges : List Edge := [⟨"a", "b"⟩]

/-- One node A. -/
def exGhostNodes : List Node :=
  [⟨"A", { label := some "A", type := NodeType.Data, params := some [] }⟩]

/-- A dangling-target edge A→X (X is no node). -/
def exGhostEdges : List Edge := [⟨"A", "X"⟩]

/-- A dangling-source edge X→A (X is no node). -/
def exDanglingEdges : List Edge := [⟨"X", "A"⟩]

/-- An Optimizer node carrying the string value "fast" under lr. -/
def exOptNode : Node :=
  ⟨"o", { label := none, type := NodeType.Optimizer, params := some [("lr", JVal.jstr "fast")] }⟩

/-- A valid graph whose Optimizer node carries the string value
"fast" under lr. -/
def exOptNodes : List Node :=
  [⟨"m", { label := some "Net", type := NodeType.Model, params := some [] }⟩,
   ⟨"l", { label := none, type := NodeType.Loss, params := none }⟩,
   exOptNode]

/-- A Split node whose params object is present but empty. -/
def exSplitNode : Node :=
  ⟨"s", { label := some "Split", type := NodeType.Split, params := some [] }⟩

/-- The nodes following exSplitNode in its graph. -/
def exSplitTail : List Node :=
  [⟨"m", { label := some "Net", type := NodeType.Model, params := some [] }⟩,
   ⟨"l", { label := none, type := NodeType.Loss, params := none }⟩,
   ⟨"o", { label := none, type := NodeType.Optimizer, params := none }⟩]

/-- A valid graph containing exSplitNode first. -/
def exSplitNodes : List Node := exSplitNode :: exSplitTail

theorem ts_exCycle : topologicalSort exCycleNodes exCycleEdges = [] :=
  topologicalSort_eval _ _ _ (by decide)

theorem ts_exChain : topologicalSort exCycleNodes exChainEdges = ["a", "b"] :=
  topologicalSort_eval _ _ _ (by decide)

theorem ts_exGhost : topologicalSort exGhostNodes exGhostEdges = ["A", "X"] :=
  topologicalSort_eval _ _ _ (by decide)

theorem ts_exDangling : topologicalSort exGhostNodes exDanglingEdges = [] :=
  topologicalSort_eval _ _ _ (by decide)

theorem ts_exOpt : topologicalSort exOptNodes [] = ["m", "l", "o"] :=
  topologicalSort_eval _ _ _ (by decide)

theorem ts_exSplit : topologicalSort exSplitNodes [] = ["s", "m", "l", "o"] :=
  topologicalSort_eval _ _ _ (by decide)

theorem ts_empty : topologicalSort [] [] = [] :=
  topologicalSort_eval _ _ _ (by decide)

/-- Claim C1, counterexample: a graph that lacks all three required
stages and contains the cycle a→b→a gets exactly the three
missing-stage messages; the cycle message is not among the errors
even though the orderer's output (empty) is shorter than the node
count, because validateGraph returns before the cycle check. -/
theorem validator_cycle_check_skipped_cx :
    validateGraph exCycleNodes exCycleEdges =
      { ok := false, errors := ["Нет узла Model", "Нет узла Loss", "Нет узла Optimizer"] } ∧
    "Обнаружен цикл в графе" ∉ (validateGraph exCycleNodes exCycleEdges).errors ∧
    (topologicalSort exCycleNodes exCycleEdges).length ≠ exCycleNodes.length := by
  refine ⟨by decide, by decide, ?_⟩
  rw [ts_exCycle]
  decide

/-- Claim C2, evaluated at the failing input: with the code state
still empty and an invalid graph (no Model, Loss or Optimizer), the
build handler stores only the comment-only error block, but the
download handler's stale-state fallback hands the emitter's full
output to the download — program text containing import statements —
although validation failed. -/
theorem download_unvalidated_emission :
    (validateGraph [] []).ok = false ∧
    buildCode [] [] "project" =
      "# Ошибки графа:\n# - Нет узла Model\n# - Нет узла Loss\n# - Нет узла Optimizer" ∧
    downloadCodeText "" [] [] "project" = generatePyTorchCode [] [] "project" ∧
    "import torch" ∈ generatePyTorchLines [] [] "project" := by
  refine ⟨by decide, by decide, by simp [downloadCodeText], ?_⟩
  unfold generatePyTorchLines orderedNodes
  rw [ts_empty]
  decide

/-- Claim C4, counterexample: the node set -A- with the dangling
edge X→A induces no cycle over the nodes, yet the ordered output is
empty rather than of length 1: the dangling source increments A's
in-degree and is never dequeued, so A stays blocked. -/
theorem orderer_totality_dangling_cx :
    EdgeAcyclic exDanglingEdges ∧
    (topologicalSort exGhostNodes exDanglingEdges).length ≠ exGhostNodes.length := by
  constructor
  · exact ⟨fun s => if s = "A" then 1 else 0, by decide⟩
  · rw [ts_exDangling]; decide

/-- Claim C5, counterexample: with node A and edge A→X, the ghost
identifier X reaches in-degree 0 after A is processed, is dequeued,
and appears in the output even though no node has id X. -/
theorem orderer_ghost_dequeue_cx :
    "X" ∈ topologicalSort exGhostNodes exGhostEdges ∧
    exGhostNodes.map Node.id = ["A"] ∧ "X" ∉ exGhostNodes.map Node.id := by
  refine ⟨?_, by decide, by decide⟩
  rw [ts_exGhost]
  decide

/-- Claim C6: for every node set and edge set — cyclic, parallel and
dangling edges included — the orderer's loop terminates, and within
at most |nodes| + |edges| iterations: run with that budget, the
fuelled loop drains its queue and returns exactly the result of the
unbounded loop. -/
theorem orderer_terminates_within_bound (nodes : List Node) (edges : List Edge) :
    topologicalSortFuel (nodes.length + edges.length) nodes edges =
      some (topologicalSort nodes edges) :=
  topologicalSort_eq_of_fuel nodes edges _ le_rfl

/-- Claim C7, counterexample: a valid graph whose Optimizer node has
the non-numeric lr value "fast" emits lr=fast; the default 1e-3 line
appears nowhere, because p.lr ?? 1e-3 only defaults on absent or
null, never on non-numeric values. -/
theorem optimizer_lr_nonnumeric_cx :
    (validateGraph exOptNodes []).ok = true ∧
    "optimizer = optim.Adam(model.parameters(), lr=fast)" ∈
      generatePyTorchLines exOptNodes [] "proj" ∧
    "optimizer = optim.Adam(model.parameters(), lr=0.001)" ∉
      generatePyTorchLines exOptNodes [] "proj" := by
  refine ⟨?_, ?_, ?_⟩
  · simp only [validateGraph, ts_exOpt]
    decide
  · unfold generatePyTorchLines orderedNodes
    rw [ts_exOpt]
    decide
  · unfold generatePyTorchLines orderedNodes
    rw [ts_exOpt]
    decide

/-- Claim C8, counterexample: a valid graph whose first Split node
has an empty params object is emitted with the dump of that empty
object; no line of the output carries the default split values,
because params || defaults replaces the object only when it is
absent, and an empty object is truthy. -/
theorem split_empty_params_cx :
    (validateGraph exSplitNodes []).ok = true ∧
    (orderedNodes exSplitNodes []).find? (fun n => n.data.type == NodeType.Split) =
      some exSplitNode ∧
    paramsComment (jsonStringify "" (JVal.jobj [])) ∈ splitBlock (some exSplitNode) ∧
    paramsComment (jsonStringify "" (JVal.jobj splitDefaultParams)) ∉
      generatePyTorchLines exSplitNodes [] "proj" := by
  refine ⟨?_, ?_, by decide, ?_⟩
  · simp only [validateGraph, ts_exSplit]
    decide
  · unfold orderedNodes
    rw [ts_exSplit]
    rfl
  · unfold generatePyTorchLines orderedNodes
    rw [ts_exSplit]
    decide

/-- Claim C9: the emitter is deterministic — two invocations on equal
inputs (node set, edge set, project name) produce byte-identical
output text; the embedding of generatePyTorchCode is a pure function
of exactly these three arguments, as the source reads no other
state. -/
theorem emitter_deterministic (n1 : List Node) (e1 : List Edge) (p1 : String)
    (n2 : List Node) (e2 : List Edge) (p2 : String)
    (hn : n1 = n2) (he : e1 = e2) (hp : p1 = p2) :
    generatePyTorchCode n1 e1 p1 = generatePyTorchCode n2 e2 p2 := by
  rw [hn, he, hp]

/-- Witness for C9 at a concrete valid graph. -/
theorem emitter_deterministic_witness :
    generatePyTorchCode exOptNodes [] "proj" = generatePyTorchCode exOptNodes [] "proj" :=
  emitter_deterministic exOptNodes [] "proj" exOptNodes [] "proj" rfl rfl rfl


/-- In-degree of an identifier in the edge list (with multiplicity). -/
def indegI (edges : List Edge) (x : String) : Int :=
  (edges.countP (fun e => e.target == x) : Int)

/-- Number of edges into x whose source already sits in res. -/
def resCount (edges : List Edge) (res : List String) (x : String) : Int :=
  (edges.countP (fun e => e.target == x && decide (e.source ∈ res)) : Int)

theorem kahnStep_fst (inc : PMap Int) (q : List String) (u : String) :
    (kahnStep inc q u).1 = mset inc u (incVal inc u - 1) := by
  simp only [kahnStep, incVal]
  split <;> rfl

theorem kahnStep_snd (inc : PMap Int) (q : List String) (u : String) :
    (kahnStep inc q u).2 = if incVal inc u = 1 then q ++ [u] else q := by
  simp only [kahnStep, mget_mset_self, Option.getD_some, beq_iff_eq, incVal]
  by_cases h : (mget inc u).getD 0 - 1 = 0
  · rw [if_pos h, if_pos (by omega)]
  · rw [if_neg h, if_neg (by omega)]

theorem incVal_kahnStep (inc : PMap Int) (q : List String) (u x : String) :
    incVal (kahnStep inc q u).1 x = incVal inc x - (if x = u then 1 else 0) := by
  rw [kahnStep_fst]
  by_cases hx : x = u
  · rw [hx, incVal_mset_self, if_pos rfl]
  · rw [incVal_mset_ne _ _ _ _ hx, if_neg hx]
    omega

theorem kahnFold_cons (u : String) (L : List String) (inc : PMap Int) (q : List String) :
    kahnFold (u :: L) inc q = kahnFold L (kahnStep inc q u).1 (kahnStep inc q u).2 := rfl

theorem kahnFold_fst (L : List String) (inc : PMap Int) (q : List String) (x : String) :
    incVal (kahnFold L inc q).1 x = incVal inc x - (L.count x : Int) := by
  induction L generalizing inc q with
  | nil => simp [kahnFold]
  | cons u L ih =>
    rw [kahnFold_cons, ih, incVal_kahnStep, List.count_cons]
    by_cases hx : x = u
    · simp only [hx, beq_self_eq_true, if_true, if_pos rfl]
      push_cast
      omega
    · have hb : (u == x) = false := by
        simp only [beq_eq_false_iff_ne, ne_eq]
        exact fun he => hx he.symm
      simp only [hb, if_neg hx, Bool.false_eq_true, if_false]
      omega

theorem kahnFold_snd (L : List String) (inc : PMap Int) (q : List String) :
    ∃ A, (kahnFold L inc q).2 = q ++ A ∧ A.Nodup ∧
      (∀ x, x ∈ A ↔ 1 ≤ incVal inc x ∧ incVal inc x ≤ (L.count x : Int)) := by
  induction L generalizing inc q with
  | nil =>
    refine ⟨[], by simp [kahnFold], List.nodup_nil, fun x => ?_⟩
    simp only [List.not_mem_nil, false_iff, List.count_nil]
    omega
  | cons u L ih =>
    rw [kahnFold_cons, kahnStep_snd]
    by_cases hc : incVal inc u = 1
    · rw [if_pos hc]
      obtain ⟨A, hA, hnd, hmem⟩ := ih (kahnStep inc q u).1 (q ++ [u])
      have hu : u ∉ A := by
        rw [hmem u, incVal_kahnStep, if_pos rfl]
        omega
      refine ⟨u :: A, ?_, List.Nodup.cons hu hnd, fun x => ?_⟩
      · rw [hA, List.append_assoc, List.singleton_append]
      · rw [List.mem_cons, hmem x, incVal_kahnStep, List.count_cons]
        by_cases hx : x = u
        · subst hx
          simp only [beq_self_eq_true, if_true, if_pos rfl, true_or, true_iff]
          push_cast
          omega
        · have hb : (u == x) = false := by
            simp only [beq_eq_false_iff_ne, ne_eq]
            exact fun he => hx he.symm
          rw [or_iff_right hx]
          simp only [hb, Bool.false_eq_true, if_false, if_neg hx, Nat.add_zero, sub_zero]
    · rw [if_neg hc]
      obtain ⟨A, hA, hnd, hmem⟩ := ih (kahnStep inc q u).1 q
      refine ⟨A, hA, hnd, fun x => ?_⟩
      rw [hmem x, incVal_kahnStep, List.count_cons]
      by_cases hx : x = u
      · subst hx
        simp only [if_pos rfl, beq_self_eq_true, if_true]
        push_cast
        omega
      · have hb : (u == x) = false := by
          simp only [beq_eq_false_iff_ne, ne_eq]
          exact fun he => hx he.symm
        simp only [hb, Bool.false_eq_true, if_false, if_neg hx, Nat.add_zero, sub_zero]


theorem initOut_getD_aux (nodes : List Node) :
    ∀ m : PMap (List String), (∀ y, (mget m y).getD [] = []) →
      ∀ y, (mget (nodes.foldl (fun m n => mset m n.id ([] : List String)) m) y).getD [] = [] := by
  induction nodes with
  | nil => intro m hm y; exact hm y
  | cons n t ih =>
    intro m hm y
    simp only [List.foldl]
    refine ih (mset m n.id []) ?_ y
    intro z
    by_cases hz : z = n.id
    · rw [hz, mget_mset_self]
      rfl
    · rw [mget_mset_ne m n.id [] z hz]
      exact hm z

theorem initOut_getD (nodes : List Node) (w : String) :
    (mget (initOut nodes) w).getD [] = [] :=
  initOut_getD_aux nodes [] (fun _ => rfl) w

theorem edgeStep_out_getD (acc : PMap Int × PMap (List String)) (e : Edge) (w : String) :
    (mget (edgeStep acc e).2 w).getD [] =
      if w = e.source then ((mget acc.2 w).getD []) ++ [e.target]
      else (mget acc.2 w).getD [] := by
  have hsame : ∀ y, (mget (if (mget acc.2 e.source).isSome then acc.2
      else mset acc.2 e.source []) y).getD [] = (mget acc.2 y).getD [] := by
    intro y
    by_cases hs : (mget acc.2 e.source).isSome
    · rw [if_pos hs]
    · rw [if_neg hs]
      by_cases hy : y = e.source
      · subst hy
        rw [mget_mset_self]
        cases ho : mget acc.2 e.source with
        | none => rfl
        | some l => rw [ho] at hs; simp at hs
      · rw [mget_mset_ne _ _ _ _ hy]
  simp only [edgeStep]
  by_cases hw : w = e.source
  · subst hw
    rw [if_pos rfl, mget_mset_self]
    simp only [Option.getD_some]
    rw [hsame e.source]
  · rw [if_neg hw, mget_mset_ne _ _ _ _ hw, hsame w]

theorem edgeFold_out (edges : List Edge) :
    ∀ acc w, (mget (edges.foldl edgeStep acc).2 w).getD [] =
      ((mget acc.2 w).getD []) ++ (edges.filter (fun e => e.source == w)).map Edge.target := by
  induction edges with
  | nil => intro acc w; simp
  | cons e t ih =>
    intro acc w
    rw [List.foldl_cons, ih, edgeStep_out_getD]
    by_cases hw : w = e.source
    · have hb : (e.source == w) = true := by simp [hw]
      rw [if_pos hw]
      simp only [List.filter_cons, hb, if_true, List.map_cons, List.append_assoc,
        List.singleton_append]
    · have hb : (e.source == w) = false := by
        simp only [beq_eq_false_iff_ne, ne_eq]
        exact fun he => hw he.symm
      rw [if_neg hw]
      simp only [List.filter_cons, hb, Bool.false_eq_true, if_false]

theorem out_initialMaps (nodes : List Node) (edges : List Edge) (w : String) :
    (mget (initialMaps nodes edges).2 w).getD [] =
      (edges.filter (fun e => e.source == w)).map Edge.target := by
  rw [initialMaps, edgeFold_out]
  simp [initOut_getD]

theorem count_map_targets (S : List Edge) (x : String) :
    (S.map Edge.target).count x = S.countP (fun e => e.target == x) := by
  induction S with
  | nil => rfl
  | cons e t ih =>
    simp only [List.map_cons, List.count_cons, List.countP_cons, ih]

theorem count_out_targets (edges : List Edge) (v x : String) :
    ((((edges.filter (fun e => e.source == v)).map Edge.target).count x : Nat) : Int) =
      (edges.countP (fun e => e.source == v && e.target == x) : Int) := by
  rw [count_map_targets, List.countP_filter]
  congr 1
  apply List.countP_congr
  intro e _
  simp [Bool.and_comm]

theorem resCount_append_single (edges : List Edge) (res : List String) (v x : String)
    (hv : v ∉ res) :
    resCount edges (res ++ [v]) x =
      resCount edges res x + (edges.countP (fun e => e.source == v && e.target == x) : Int) := by
  unfold resCount
  have key : ∀ e : Edge,
      (if (e.target == x && decide (e.source ∈ res ++ [v])) = true then 1 else 0) =
        (if (e.target == x && decide (e.source ∈ res)) = true then 1 else 0) +
          (if (e.source == v && e.target == x) = true then (1 : Nat) else 0) := by
    intro e
    by_cases h1 : e.target = x
    · by_cases h3 : e.source = v
      · have h2 : e.source ∉ res := fun hh => hv (by rwa [h3] at hh)
        simp [h1, h2, h3, List.mem_append, hv]
      · by_cases h2 : e.source ∈ res
        · simp [h1, h2, h3, List.mem_append]
        · simp [h1, h2, h3, List.mem_append]
    · simp [h1]
  induction edges with
  | nil => simp
  | cons e t ih =>
    simp only [List.countP_cons]
    have hk := key e
    omega

theorem countP_le_mono {α : Type} (l : List α) (p r : α → Bool) :
    l.countP (fun a => p a && r a) ≤ l.countP p :=
  List.countP_mono_left (fun a _ hpa => by
    rw [Bool.and_eq_true] at hpa
    exact hpa.1)

theorem countP_conj_eq {α : Type} (l : List α) (p r : α → Bool)
    (h : l.countP (fun a => p a && r a) = l.countP p) :
    ∀ a ∈ l, p a = true → r a = true := by
  induction l with
  | nil => simp
  | cons b t ih =>
    have hmono := countP_le_mono t p r
    simp only [List.countP_cons] at h
    by_cases hpb : p b = true
    · by_cases hrb : r b = true
      · have hb1 : ((p b && r b) = true) := by rw [hpb, hrb]; rfl
        rw [if_pos hb1, if_pos hpb] at h
        have ht : t.countP (fun a => p a && r a) = t.countP p := by omega
        intro a ha hpa
        rcases List.mem_cons.mp ha with heq | hat
        · rw [heq]; exact hrb
        · exact ih ht a hat hpa
      · have hb1 : ¬ ((p b && r b) = true) := by
          intro hh; rw [Bool.and_eq_true] at hh; exact hrb hh.2
        rw [if_neg hb1, if_pos hpb] at h
        exfalso
        omega
    · have hb1 : ¬ ((p b && r b) = true) := by
        intro hh; rw [Bool.and_eq_true] at hh; exact hpb hh.1
      rw [if_neg hb1, if_neg hpb] at h
      have ht : t.countP (fun a => p a && r a) = t.countP p := by omega
      intro a ha hpa
      rcases List.mem_cons.mp ha with heq | hat
      · rw [heq] at hpa; exact absurd hpa hpb
      · exact ih ht a hat hpa

theorem resCount_le_indeg (edges : List Edge) (res : List String) (x : String) :
    resCount edges res x ≤ indegI edges x := by
  unfold resCount indegI
  have := countP_le_mono edges (fun e => e.target == x) (fun e => decide (e.source ∈ res))
  omega

theorem resCount_eq_indeg_of (edges : List Edge) (res : List String) (x : String)
    (h : ∀ e ∈ edges, e.target = x → e.source ∈ res) :
    resCount edges res x = indegI edges x := by
  unfold resCount indegI
  congr 1
  apply List.countP_congr
  intro e he
  by_cases ht : e.target = x
  · simp [ht, h e he ht]
  · simp [ht]

theorem all_sources_of_resCount_eq (edges : List Edge) (res : List String) (x : String)
    (h : resCount edges res x = indegI edges x) :
    ∀ e ∈ edges, e.target = x → e.source ∈ res := by
  unfold resCount indegI at h
  have h2 : edges.countP (fun e => (e.target == x) && decide (e.source ∈ res)) =
      edges.countP (fun e => e.target == x) := by omega
  intro e he ht
  have := countP_conj_eq edges (fun e => e.target == x) (fun e => decide (e.source ∈ res)) h2
    e he (by simp [ht])
  simpa using this


theorem incVal_edgeStep (acc : PMap Int × PMap (List String)) (e : Edge) (x : String) :
    incVal (edgeStep acc e).1 x = incVal acc.1 x + (if e.target = x then 1 else 0) := by
  simp only [edgeStep]
  by_cases hx : x = e.target
  · rw [hx, incVal_mset_self, if_pos rfl]
    rfl
  · rw [incVal_mset_ne _ _ _ _ hx, if_neg (fun hh => hx hh.symm)]
    omega

theorem incVal_edgeFold (edges : List Edge) :
    ∀ acc x, incVal (edges.foldl edgeStep acc).1 x =
      incVal acc.1 x + (edges.countP (fun e => e.target == x) : Int) := by
  induction edges with
  | nil => intro acc x; simp
  | cons e t ih =>
    intro acc x
    rw [List.foldl_cons, ih, incVal_edgeStep, List.countP_cons]
    by_cases ht : e.target = x
    · simp [ht]
      omega
    · simp [ht]

theorem incVal_initialMaps (nodes : List Node) (edges : List Edge) (x : String) :
    incVal (initialMaps nodes edges).1 x = indegI edges x := by
  rw [initialMaps, incVal_edgeFold]
  simp [incVal_initIncoming, indegI]

theorem resCount_nil (edges : List Edge) (x : String) : resCount edges [] x = 0 := by
  unfold resCount
  have h : edges.countP (fun e => e.target == x && decide (e.source ∈ ([] : List String))) =
      edges.countP (fun _ => false) :=
    List.countP_congr (fun e _ => by simp)
  rw [h, List.countP_false]
  rfl

/-- Invariant of the orderer's loop. res is what has been output so
far, q the ready queue. -/
structure KInv (nodes : List Node) (edges : List Edge) (inc : PMap Int)
    (q res : List String) : Prop where
  nodup : (res ++ q).Nodup
  deg : ∀ x, incVal inc x = indegI edges x - resCount edges res x
  closed : ∀ e ∈ edges, e.target ∈ res ++ q → e.source ∈ res
  domain : ∀ x ∈ res ++ q, x ∈ nodes.map Node.id ∨ x ∈ edges.map Edge.target
  ready : ∀ x ∈ nodes.map Node.id, incVal inc x = 0 → x ∈ res ++ q

theorem KInv.memZero {nodes : List Node} {edges : List Edge} {inc : PMap Int}
    {q res : List String} (hinv : KInv nodes edges inc q res) (x : String)
    (hx : x ∈ res ++ q) : incVal inc x = 0 := by
  have hall : ∀ e ∈ edges, e.target = x → e.source ∈ res := by
    intro e he ht
    exact hinv.closed e he (by rwa [ht])
  rw [hinv.deg x, resCount_eq_indeg_of edges res x hall]
  omega

theorem KInv_init (nodes : List Node) (edges : List Edge)
    (hnd : (nodes.map Node.id).Nodup) :
    KInv nodes edges (initialMaps nodes edges).1
      (initialQueue nodes (initialMaps nodes edges).1) [] := by
  refine ⟨?_, ?_, ?_, ?_, ?_⟩
  · simp only [List.nil_append, initialQueue]
    exact List.Nodup.sublist (List.Sublist.map Node.id (List.filter_sublist nodes)) hnd
  · intro x
    rw [incVal_initialMaps, resCount_nil]
    omega
  · intro e he htgt
    exfalso
    simp only [List.nil_append, initialQueue] at htgt
    rcases List.mem_map.mp htgt with ⟨n, hn, hid⟩
    have hz : incVal (initialMaps nodes edges).1 n.id = 0 := by
      have := (List.mem_filter.mp hn).2
      simpa [incVal] using this
    rw [incVal_initialMaps] at hz
    have hpos : 0 < edges.countP (fun e2 => e2.target == n.id) :=
      List.countP_pos_iff.mpr ⟨e, he, by simp [hid]⟩
    unfold indegI at hz
    omega
  · intro x hx
    left
    simp only [List.nil_append, initialQueue] at hx
    rcases List.mem_map.mp hx with ⟨n, hn, hid⟩
    rw [← hid]
    exact List.mem_map_of_mem Node.id (List.mem_of_mem_filter hn)
  · intro x hx hz
    simp only [List.nil_append, initialQueue]
    rcases List.mem_map.mp hx with ⟨n, hn, hid⟩
    refine List.mem_map.mpr ⟨n, List.mem_filter.mpr ⟨hn, ?_⟩, hid⟩
    rw [hid]
    simpa [incVal] using hz

theorem KInv_step (nodes : List Node) (edges : List Edge) (inc : PMap Int)
    (v : String) (rest res : List String) (L : List String)
    (hL : L = (edges.filter (fun e => e.source == v)).map Edge.target)
    (hinv : KInv nodes edges inc (v :: rest) res) :
    KInv nodes edges (kahnFold L inc rest).1 (kahnFold L inc rest).2 (res ++ [v]) := by
  obtain ⟨A, hA, hndA, hmemA⟩ := kahnFold_snd L inc rest
  have hvres : v ∉ res := by
    intro hv
    have hd := List.disjoint_of_nodup_append hinv.nodup
    exact hd hv (List.mem_cons_self v rest)
  have hcount : ∀ x, (L.count x : Int) =
      (edges.countP (fun e => e.source == v && e.target == x) : Int) := by
    intro x
    rw [hL]
    exact count_out_targets edges v x
  have hdeg : ∀ x, incVal (kahnFold L inc rest).1 x =
      indegI edges x - resCount edges (res ++ [v]) x := by
    intro x
    rw [kahnFold_fst, hinv.deg x, resCount_append_single edges res v x hvres, hcount x]
    omega
  have hmemZero : ∀ x ∈ res ++ v :: rest, incVal inc x = 0 :=
    fun x hx => hinv.memZero x hx
  have hAfresh : ∀ a ∈ A, a ∉ res ++ v :: rest := by
    intro a ha hmem
    have h1 := (hmemA a).mp ha
    have h0 := hmemZero a hmem
    omega
  have hAL : ∀ a ∈ A, a ∈ L := by
    intro a ha
    have h1 := (hmemA a).mp ha
    have : 0 < L.count a := by omega
    exact List.count_pos_iff.mp this
  refine ⟨?_, hdeg, ?_, ?_, ?_⟩
  · rw [hA]
    have heq : ((res ++ [v]) ++ (rest ++ A)) = (res ++ v :: rest) ++ A := by
      simp
    rw [heq]
    exact List.Nodup.append hinv.nodup hndA (fun a ha1 ha2 => hAfresh a ha2 ha1)
  · intro e he htgt
    rw [hA] at htgt
    have hsplit : e.target ∈ res ++ v :: rest ∨ e.target ∈ A := by
      simp only [List.mem_append, List.mem_cons, List.mem_singleton] at htgt ⊢
      tauto
    rcases hsplit with h | h
    · have := hinv.closed e he h
      simp only [List.mem_append, List.mem_singleton]
      tauto
    · have h1 := (hmemA e.target).mp h
      have h2 : incVal (kahnFold L inc rest).1 e.target ≤ 0 := by
        rw [kahnFold_fst]
        omega
      have h3 := resCount_le_indeg edges (res ++ [v]) e.target
      have h4 : resCount edges (res ++ [v]) e.target = indegI edges e.target := by
        have := hdeg e.target
        omega
      exact all_sources_of_resCount_eq edges (res ++ [v]) e.target h4 e he rfl
  · intro x hx
    rw [hA] at hx
    have hsplit : x ∈ res ++ v :: rest ∨ x ∈ A := by
      simp only [List.mem_append, List.mem_cons, List.mem_singleton] at hx ⊢
      tauto
    rcases hsplit with h | h
    · exact hinv.domain x h
    · right
      have := hAL x h
      rw [hL] at this
      rcases List.mem_map.mp this with ⟨e, he, hte⟩
      rw [← hte]
      exact List.mem_map_of_mem Edge.target (List.mem_of_mem_filter he)
  · intro x hx h0
    rw [kahnFold_fst] at h0
    by_cases hcnt : L.count x = 0
    · have hz : incVal inc x = 0 := by
        rw [hcnt] at h0
        simpa using h0
      have := hinv.ready x hx hz
      rw [hA]
      simp only [List.mem_append, List.mem_cons, List.mem_singleton] at this ⊢
      tauto
    · have hmem : x ∈ A := by
        refine (hmemA x).mpr ⟨by omega, by omega⟩
      rw [hA]
      simp only [List.mem_append]
      tauto


theorem kahnLoop_res_extends (out : PMap (List String)) :
    ∀ inc q res, ∃ t, kahnLoop out inc q res = res ++ t := by
  intro inc q res
  induction inc, q, res using kahnLoop.induct out with
  | case1 inc res => exact ⟨[], by rw [kahnLoop]; simp⟩
  | case2 inc v rest res ih =>
    obtain ⟨t, ht⟩ := ih
    refine ⟨v :: t, ?_⟩
    rw [kahnLoop, ht, List.append_assoc, List.singleton_append]

theorem kahnLoop_inv (nodes : List Node) (edges : List Edge) (out : PMap (List String))
    (hout : ∀ w, (mget out w).getD [] = (edges.filter (fun e => e.source == w)).map Edge.target) :
    ∀ inc q res, KInv nodes edges inc q res →
      ∃ incF, KInv nodes edges incF [] (kahnLoop out inc q res) := by
  intro inc q res
  induction inc, q, res using kahnLoop.induct out with
  | case1 inc res =>
    intro hinv
    rw [kahnLoop]
    exact ⟨inc, hinv⟩
  | case2 inc v rest res ih =>
    intro hinv
    rw [kahnLoop]
    exact ih (KInv_step nodes edges inc v rest res _ (hout v) hinv)

theorem kahnLoop_order (nodes : List Node) (edges : List Edge) (out : PMap (List String))
    (hout : ∀ w, (mget out w).getD [] = (edges.filter (fun e => e.source == w)).map Edge.target) :
    ∀ inc q res, KInv nodes edges inc q res →
      ∀ e ∈ edges, ∀ l₁ l₂, kahnLoop out inc q res = l₁ ++ e.target :: l₂ →
        res.length ≤ l₁.length → e.source ∈ l₁ := by
  intro inc q res
  induction inc, q, res using kahnLoop.induct out with
  | case1 inc res =>
    intro hinv e he l₁ l₂ hdec hlen
    rw [kahnLoop] at hdec
    exfalso
    rw [hdec] at hlen
    simp only [List.length_append, List.length_cons] at hlen
    omega
  | case2 inc v rest res ih =>
    intro hinv e he l₁ l₂ hdec hlen
    rw [kahnLoop] at hdec
    have hinv2 := KInv_step nodes edges inc v rest res _ (hout v) hinv
    by_cases hl : res.length + 1 ≤ l₁.length
    · refine ih hinv2 e he l₁ l₂ hdec ?_
      simp only [List.length_append, List.length_singleton]
      omega
    · have hleq : res.length = l₁.length := by omega
      obtain ⟨t, ht⟩ := kahnLoop_res_extends out
        (kahnFold ((mget out v).getD []) inc rest).1
        (kahnFold ((mget out v).getD []) inc rest).2 (res ++ [v])
      rw [ht] at hdec
      have hdec2 : res ++ ([v] ++ t) = l₁ ++ (e.target :: l₂) := by
        rw [← List.append_assoc]
        exact hdec
      obtain ⟨hres_eq, hrest_eq⟩ := List.append_inj hdec2 hleq
      have hv_eq : v = e.target := by
        rw [List.singleton_append] at hrest_eq
        exact (List.cons_eq_cons.mp hrest_eq).1
      have hsrc : e.source ∈ res := by
        refine hinv.closed e he ?_
        rw [← hv_eq]
        exact List.mem_append_right res (List.mem_cons_self v rest)
      rw [← hres_eq]
      exact hsrc

theorem kahnLoop_subset (out : PMap (List String)) (P : String → Prop)
    (hout : ∀ w y, y ∈ (mget out w).getD [] → P y) :
    ∀ inc q res, (∀ y ∈ q, P y) → (∀ y ∈ res, P y) →
      ∀ x ∈ kahnLoop out inc q res, P x := by
  intro inc q res
  induction inc, q, res using kahnLoop.induct out with
  | case1 inc res =>
    intro _ hres x hx
    rw [kahnLoop] at hx
    exact hres x hx
  | case2 inc v rest res ih =>
    intro hq hres x hx
    rw [kahnLoop] at hx
    obtain ⟨A, hA, _, hmemA⟩ := kahnFold_snd ((mget out v).getD []) inc rest
    refine ih ?_ ?_ x hx
    · rw [hA]
      intro y hy
      rcases List.mem_append.mp hy with h | h
      · exact hq y (List.mem_cons_of_mem v h)
      · have h1 := (hmemA y).mp h
        have h2 : 0 < ((mget out v).getD []).count y := by omega
        exact hout v y (List.count_pos_iff.mp h2)
    · intro y hy
      rcases List.mem_append.mp hy with h | h
      · exact hres y h
      · rw [List.mem_singleton] at h
        rw [h]
        exact hq v (List.mem_cons_self v rest)

/-- Claim C3: for every node set (distinct ids, as the data model
requires) and edge set, every edge u→v whose endpoints both appear in
the orderer's output has u strictly before v: wherever the output
splits as l₁ ++ v :: l₂, the source u lies in l₁. -/
theorem orderer_edge_ordering (nodes : List Node) (edges : List Edge)
    (hnd : (nodes.map Node.id).Nodup) (e : Edge) (he : e ∈ edges)
    (_hsrc : e.source ∈ topologicalSort nodes edges)
    (l₁ l₂ : List String)
    (hdec : topologicalSort nodes edges = l₁ ++ e.target :: l₂) :
    e.source ∈ l₁ := by
  unfold topologicalSort at hdec
  exact kahnLoop_order nodes edges _ (out_initialMaps nodes edges) _ _ _
    (KInv_init nodes edges hnd) e he l₁ l₂ hdec (by simp)

/-- Witness for C3 on the chain a→b. -/
theorem orderer_edge_ordering_witness :
    topologicalSort exCycleNodes exChainEdges = ["a"] ++ "b" :: [] ∧
    "a" ∈ (["a"] : List String) :=
  ⟨by rw [ts_exChain]; rfl, orderer_edge_ordering exCycleNodes exChainEdges (by decide)
    ⟨"a", "b"⟩ (by decide) (by rw [ts_exChain]; decide) ["a"] [] (by rw [ts_exChain]; rfl)⟩

/-- Claim C4 (amended): for a node set with distinct ids and an edge
set all of whose endpoints reference nodes of the set, acyclicity
gives an ordered output of length exactly the node count. -/
theorem orderer_totality_acyclic (nodes : List Node) (edges : List Edge)
    (hnd : (nodes.map Node.id).Nodup)
    (hdang : ∀ e ∈ edges, e.source ∈ nodes.map Node.id ∧ e.target ∈ nodes.map Node.id)
    (hacyc : EdgeAcyclic edges) :
    (topologicalSort nodes edges).length = nodes.length := by
  obtain ⟨rank, hrank⟩ := hacyc
  obtain ⟨incF, hinvF⟩ := kahnLoop_inv nodes edges _ (out_initialMaps nodes edges) _ _ _
    (KInv_init nodes edges hnd)
  have hK : KInv nodes edges incF [] (topologicalSort nodes edges) := hinvF
  have hnodupF : (topologicalSort nodes edges).Nodup := by
    have := hK.nodup
    simpa using this
  have hsubF : ∀ x ∈ topologicalSort nodes edges, x ∈ nodes.map Node.id := by
    intro x hx
    rcases hK.domain x (by simpa using hx) with h | h
    · exact h
    · rcases List.mem_map.mp h with ⟨e, he, hte⟩
      rw [← hte]
      exact (hdang e he).2
  have hsupF : ∀ x ∈ nodes.map Node.id, x ∈ topologicalSort nodes edges := by
    by_contra hcon
    push_neg at hcon
    obtain ⟨x0, hx0, hx0n⟩ := hcon
    have hx0S : x0 ∈ (nodes.map Node.id).filter
        (fun i => !(topologicalSort nodes edges).contains i) := by
      refine List.mem_filter.mpr ⟨hx0, ?_⟩
      simp only [Bool.not_eq_true', ← Bool.not_eq_true]
      intro hc
      exact hx0n (List.elem_iff.mp hc)
    have hSne : ((nodes.map Node.id).filter
        (fun i => !(topologicalSort nodes edges).contains i)).toFinset.Nonempty :=
      ⟨x0, List.mem_toFinset.mpr hx0S⟩
    obtain ⟨m, hmF, hmin⟩ := Finset.exists_min_image _ rank hSne
    have hmS := List.mem_toFinset.mp hmF
    have hmid : m ∈ nodes.map Node.id := (List.mem_filter.mp hmS).1
    have hmnot : m ∉ topologicalSort nodes edges := by
      have h2 := (List.mem_filter.mp hmS).2
      intro hc
      rw [Bool.not_eq_true'] at h2
      have h3 : (topologicalSort nodes edges).contains m = true := List.elem_iff.mpr hc
      rw [h3] at h2
      exact Bool.noConfusion h2
    have hall : ∀ e ∈ edges, e.target = m → e.source ∈ topologicalSort nodes edges := by
      intro e he hte
      have hsrc_id : e.source ∈ nodes.map Node.id := (hdang e he).1
      by_cases hsS : e.source ∈ (nodes.map Node.id).filter
          (fun i => !(topologicalSort nodes edges).contains i)
      · exfalso
        have h1 := hmin e.source (List.mem_toFinset.mpr hsS)
        have h2 := hrank e he
        rw [hte] at h2
        omega
      · by_contra hnot
        refine hsS (List.mem_filter.mpr ⟨hsrc_id, ?_⟩)
        simp only [Bool.not_eq_true', ← Bool.not_eq_true]
        intro hc
        exact hnot (List.elem_iff.mp hc)
    have hrc : resCount edges (topologicalSort nodes edges) m = indegI edges m :=
      resCount_eq_indeg_of edges _ m hall
    have hz : incVal incF m = 0 := by
      rw [hK.deg m, hrc]
      omega
    have hmem := hK.ready m hmid hz
    rw [List.append_nil] at hmem
    exact hmnot hmem
  have h1 : (topologicalSort nodes edges).length ≤ (nodes.map Node.id).length :=
    (hnodupF.subperm (fun x hx => hsubF x hx)).length_le
  have h2 : (nodes.map Node.id).length ≤ (topologicalSort nodes edges).length :=
    (hnd.subperm (fun x hx => hsupF x hx)).length_le
  rw [List.length_map] at h1 h2
  omega

/-- Witness for C4 on the chain a→b. -/
theorem orderer_totality_acyclic_witness :
    (topologicalSort exCycleNodes exChainEdges).length = exCycleNodes.length :=
  orderer_totality_acyclic exCycleNodes exChainEdges (by decide) (by decide)
    ⟨fun s => if s = "b" then 1 else 0, by decide⟩

/-- Claim C5 (amended): the orderer never fails on dangling edges,
and every dequeued identifier is a node id or the target of some
edge; identifiers occurring only as sources of dangling edges are
never dequeued. -/
theorem orderer_output_domain (nodes : List Node) (edges : List Edge) (x : String)
    (hx : x ∈ topologicalSort nodes edges) :
    x ∈ nodes.map Node.id ∨ x ∈ edges.map Edge.target := by
  unfold topologicalSort at hx
  refine kahnLoop_subset _ (fun y => y ∈ nodes.map Node.id ∨ y ∈ edges.map Edge.target)
    ?_ _ _ _ ?_ ?_ x hx
  · intro w y hy
    rw [out_initialMaps] at hy
    rcases List.mem_map.mp hy with ⟨e, he, hte⟩
    right
    rw [← hte]
    exact List.mem_map_of_mem Edge.target (List.mem_of_mem_filter he)
  · intro y hy
    left
    rcases List.mem_map.mp hy with ⟨n, hn, hid⟩
    rw [← hid]
    exact List.mem_map_of_mem Node.id (List.mem_of_mem_filter hn)
  · intro y hy
    exact absurd hy (List.not_mem_nil y)

/-- Witness for C5 (amended) at the ghost example: X is dequeued and
is indeed an edge target. -/
theorem orderer_output_domain_witness :
    "X" ∈ topologicalSort exGhostNodes exGhostEdges ∧
    ("X" ∈ exGhostNodes.map Node.id ∨ "X" ∈ exGhostEdges.map Edge.target) :=
  ⟨by rw [ts_exGhost]; decide,
   orderer_output_domain exGhostNodes exGhostEdges "X" (by rw [ts_exGhost]; decide)⟩


theorem lookupById_spec (nodes : List Node) (i : String) :
    ∀ acc : Option Node, ∀ n,
      nodes.foldl (fun acc n => if n.id == i then some n else acc) acc = some n →
      acc = some n ∨ (n ∈ nodes ∧ n.id = i) := by
  induction nodes with
  | nil => intro acc n h; exact Or.inl h
  | cons m t ih =>
    intro acc n h
    simp only [List.foldl] at h
    rcases ih _ n h with h2 | h2
    · by_cases hm : (m.id == i) = true
      · rw [if_pos hm] at h2
        have hmn := Option.some.inj h2
        right
        constructor
        · rw [← hmn]
          exact List.mem_cons_self m t
        · rw [← hmn]
          exact beq_iff_eq.mp hm
      · rw [if_neg hm] at h2
        exact Or.inl h2
    · exact Or.inr ⟨List.mem_cons_of_mem m h2.1, h2.2⟩

theorem lookupById_some (nodes : List Node) (i : String) (n : Node)
    (h : lookupById nodes i = some n) : n ∈ nodes ∧ n.id = i := by
  rcases lookupById_spec nodes i none n h with h2 | h2
  · exact Option.noConfusion h2
  · exact h2

/-- Claim C10: the emitter is total on arbitrary input; nodes whose
id the orderer never dequeues are excluded from the resolved node
list feeding every per-type block, and dequeued identifiers matching
no node are dropped before emission. -/
theorem emitter_total_filtering (nodes : List Node) (edges : List Edge) :
    (∀ n ∈ orderedNodes nodes edges, n ∈ nodes ∧ n.id ∈ topologicalSort nodes edges) ∧
    (∀ n ∈ nodes, n.id ∉ topologicalSort nodes edges → n ∉ orderedNodes nodes edges) ∧
    (∀ i ∈ topologicalSort nodes edges, lookupById nodes i = none →
      ∀ n ∈ orderedNodes nodes edges, n.id ≠ i) := by
  have hmem : ∀ n ∈ orderedNodes nodes edges,
      n ∈ nodes ∧ n.id ∈ topologicalSort nodes edges := by
    intro n hn
    rcases List.mem_filterMap.mp hn with ⟨j, hj, hlook⟩
    obtain ⟨h1, h2⟩ := lookupById_some nodes j n hlook
    refine ⟨h1, ?_⟩
    rw [h2]
    exact hj
  refine ⟨hmem, ?_, ?_⟩
  · intro n _ hnid hcontra
    exact hnid (hmem n hcontra).2
  · intro i _ hnone n hn hni
    rcases List.mem_filterMap.mp hn with ⟨j, _, hlook⟩
    have hj : n.id = j := (lookupById_some nodes j n hlook).2
    rw [hni] at hj
    rw [← hj] at hlook
    rw [hnone] at hlook
    exact Option.noConfusion hlook

/-- Witness for C10: in the cyclic example nothing is dequeued, and
the node a is excluded from the emitter's resolved list. -/
theorem emitter_total_filtering_witness :
    exNodeA ∈ exCycleNodes ∧ topologicalSort exCycleNodes exCycleEdges = [] ∧
    exNodeA ∉ orderedNodes exCycleNodes exCycleEdges :=
  ⟨List.mem_cons_self _ _, ts_exCycle,
   (emitter_total_filtering exCycleNodes exCycleEdges).2.1 exNodeA (List.mem_cons_self _ _)
     (by rw [ts_exCycle]; exact List.not_mem_nil _)⟩

theorem list_find?_first {α : Type} (p : α → Bool) (l₁ l₂ : List α) (m : α)
    (h1 : ∀ a ∈ l₁, p a = false) (hm : p m = true) :
    (l₁ ++ m :: l₂).find? p = some m := by
  induction l₁ with
  | nil => simp [List.find?, hm]
  | cons a t ih =>
    simp only [List.cons_append, List.find?, h1 a (by simp)]
    exact ih (fun b hb => h1 b (by simp [hb]))


theorem mem_generate_of_mem_optimizerBlock (nodes : List Node) (edges : List Edge)
    (pn : String) (n : Node)
    (hfind : (orderedNodes nodes edges).find? (fun m => m.data.type == NodeType.Optimizer) =
      some n)
    (s : String) (hs : s ∈ optimizerBlock (some n)) :
    s ∈ generatePyTorchLines nodes edges pn := by
  simp only [generatePyTorchLines]
  rw [hfind]
  simp only [List.mem_append]
  tauto

/-- Claim C7 (amended): the optimizer line of the emitted script uses
params.lr of the first Optimizer node; the default 1e-3 is used
exactly when lr is absent or null, while any other value — numeric
or not — is interpolated as is. -/
theorem optimizer_lr_defaulting (nodes : List Node) (edges : List Edge) (pn : String)
    (n : Node)
    (hfind : (orderedNodes nodes edges).find? (fun m => m.data.type == NodeType.Optimizer) =
      some n)
    (ps : List (String × JVal)) (hps : n.data.params = some ps) :
    ((lookupKey ps "lr" = none ∨ lookupKey ps "lr" = some JVal.jnull) →
      "optimizer = optim.Adam(model.parameters(), lr=0.001)" ∈
        generatePyTorchLines nodes edges pn) ∧
    (∀ v, lookupKey ps "lr" = some v → v ≠ JVal.jnull →
      ("optimizer = optim.Adam(model.parameters(), lr=" ++ jvalInterp v ++ ")") ∈
        generatePyTorchLines nodes edges pn) := by
  constructor
  · intro hnull
    refine mem_generate_of_mem_optimizerBlock nodes edges pn n hfind _ ?_
    simp only [optimizerBlock, hps, Option.getD_some]
    rcases hnull with h | h
    · rw [h]
      simp only [nullishOr, jvalInterp]
      decide
    · rw [h]
      simp only [nullishOr, jvalInterp]
      decide
  · intro v hv hvnull
    refine mem_generate_of_mem_optimizerBlock nodes edges pn n hfind _ ?_
    simp only [optimizerBlock, hps, Option.getD_some, hv]
    cases v with
    | jnull => exact absurd rfl hvnull
    | jnum r =>
      simp only [nullishOr]
      exact List.mem_cons_of_mem _ (List.mem_cons_self _ _)
    | jstr s =>
      simp only [nullishOr]
      exact List.mem_cons_of_mem _ (List.mem_cons_self _ _)
    | jbool b =>
      simp only [nullishOr]
      exact List.mem_cons_of_mem _ (List.mem_cons_self _ _)
    | jarr xs =>
      simp only [nullishOr]
      exact List.mem_cons_of_mem _ (List.mem_cons_self _ _)
    | jobj fs =>
      simp only [nullishOr]
      exact List.mem_cons_of_mem _ (List.mem_cons_self _ _)

/-- Witness for C7 (amended) at the "fast" optimizer graph. -/
theorem optimizer_lr_defaulting_witness :
    ("optimizer = optim.Adam(model.parameters(), lr=" ++ jvalInterp (JVal.jstr "fast") ++ ")") ∈
      generatePyTorchLines exOptNodes [] "proj" :=
  (optimizer_lr_defaulting exOptNodes [] "proj" exOptNode
      (by unfold orderedNodes; rw [ts_exOpt]; rfl)
      [("lr", JVal.jstr "fast")] rfl).2
    (JVal.jstr "fast") rfl (fun h => JVal.noConfusion h)

theorem mem_generate_of_mem_splitBlock (nodes : List Node) (edges : List Edge)
    (pn : String) (n : Node)
    (hfind : (orderedNodes nodes edges).find? (fun m => m.data.type == NodeType.Split) =
      some n)
    (s : String) (hs : s ∈ splitBlock (some n)) :
    s ∈ generatePyTorchLines nodes edges pn := by
  simp only [generatePyTorchLines]
  rw [hfind]
  simp only [List.mem_append]
  tauto

/-- Claim C8 (amended): exactly the first Split node in dependency
order is emitted (later Split nodes contribute nothing); the default
object -train 0.8, val 0.1, test 0.1, shuffle true- replaces the
params only when they are absent altogether, and a present params
object — the empty one included — is dumped as it is. -/
theorem split_first_node_defaulting (nodes : List Node) (edges : List Edge) (pn : String)
    (l₁ l₂ : List Node) (m : Node)
    (hdec : orderedNodes nodes edges = l₁ ++ m :: l₂)
    (hfirst : ∀ a ∈ l₁, (a.data.type == NodeType.Split) = false)
    (hm : m.data.type = NodeType.Split) :
    ((m.data.params = none →
      paramsComment (jsonStringify "" (JVal.jobj splitDefaultParams)) ∈
        generatePyTorchLines nodes edges pn) ∧
     (∀ ps, m.data.params = some ps →
      paramsComment (jsonStringify "" (JVal.jobj ps)) ∈
        generatePyTorchLines nodes edges pn)) := by
  have hfind : (orderedNodes nodes edges).find? (fun n => n.data.type == NodeType.Split) =
      some m := by
    rw [hdec]
    exact list_find?_first _ l₁ l₂ m hfirst (by simp [hm])
  constructor
  · intro hnone
    refine mem_generate_of_mem_splitBlock nodes edges pn m hfind _ ?_
    simp only [splitBlock, hnone, Option.getD_none]
    exact List.mem_cons_of_mem _ (List.mem_cons_of_mem _ (List.mem_cons_self _ _))
  · intro ps hps
    refine mem_generate_of_mem_splitBlock nodes edges pn m hfind _ ?_
    simp only [splitBlock, hps, Option.getD_some]
    exact List.mem_cons_of_mem _ (List.mem_cons_of_mem _ (List.mem_cons_self _ _))

/-- Witness for C8 (amended) at the empty-params Split graph. -/
theorem split_first_node_defaulting_witness :
    paramsComment (jsonStringify "" (JVal.jobj [])) ∈
      generatePyTorchLines exSplitNodes [] "proj" :=
  (split_first_node_defaulting exSplitNodes [] "proj" [] exSplitTail exSplitNode
      (by unfold orderedNodes; rw [ts_exSplit]; rfl)
      (by intro a ha; exact absurd ha (List.not_mem_nil a)) rfl).2 [] rfl


/-- Claim C1 (amended): the three required-stage checks are all
evaluated and their failures collected together, but the validator
returns before the acyclicity check whenever a stage is missing: the
cycle message appears exactly when all three stages are present and
the orderer's output is shorter than the node count; ok holds iff
the error list is empty. -/
theorem validator_error_characterization (nodes : List Node) (edges : List Edge) :
    (("Нет узла Model" ∈ (validateGraph nodes edges).errors) ↔
      typeCount nodes NodeType.Model = 0) ∧
    (("Нет узла Loss" ∈ (validateGraph nodes edges).errors) ↔
      typeCount nodes NodeType.Loss = 0) ∧
    (("Нет узла Optimizer" ∈ (validateGraph nodes edges).errors) ↔
      typeCount nodes NodeType.Optimizer = 0) ∧
    (("Обнаружен цикл в графе" ∈ (validateGraph nodes edges).errors) ↔
      (typeCount nodes NodeType.Model ≠ 0 ∧ typeCount nodes NodeType.Loss ≠ 0 ∧
       typeCount nodes NodeType.Optimizer ≠ 0 ∧
       (topologicalSort nodes edges).length ≠ nodes.length)) ∧
    ((validateGraph nodes edges).ok = true ↔ (validateGraph nodes edges).errors = []) := by
  by_cases hM : typeCount nodes NodeType.Model = 0 <;>
    by_cases hL : typeCount nodes NodeType.Loss = 0 <;>
      by_cases hO : typeCount nodes NodeType.Optimizer = 0
  · have hv : validateGraph nodes edges =
        ⟨false, ["Нет узла Model", "Нет узла Loss", "Нет узла Optimizer"]⟩ := by
      simp [validateGraph, hM, hL, hO]
    rw [hv]
    refine ⟨?_, ?_, ?_, ?_, ?_⟩ <;> simp [hM, hL, hO]
  · have hv : validateGraph nodes edges =
        ⟨false, ["Нет узла Model", "Нет узла Loss"]⟩ := by
      simp [validateGraph, hM, hL, hO]
    rw [hv]
    refine ⟨?_, ?_, ?_, ?_, ?_⟩ <;> simp [hM, hL, hO]
  · have hv : validateGraph nodes edges =
        ⟨false, ["Нет узла Model", "Нет узла Optimizer"]⟩ := by
      simp [validateGraph, hM, hL, hO]
    rw [hv]
    refine ⟨?_, ?_, ?_, ?_, ?_⟩ <;> simp [hM, hL, hO]
  · have hv : validateGraph nodes edges = ⟨false, ["Нет узла Model"]⟩ := by
      simp [validateGraph, hM, hL, hO]
    rw [hv]
    refine ⟨?_, ?_, ?_, ?_, ?_⟩ <;> simp [hM, hL, hO]
  · have hv : validateGraph nodes edges =
        ⟨false, ["Нет узла Loss", "Нет узла Optimizer"]⟩ := by
      simp [validateGraph, hM, hL, hO]
    rw [hv]
    refine ⟨?_, ?_, ?_, ?_, ?_⟩ <;> simp [hM, hL, hO]
  · have hv : validateGraph nodes edges = ⟨false, ["Нет узла Loss"]⟩ := by
      simp [validateGraph, hM, hL, hO]
    rw [hv]
    refine ⟨?_, ?_, ?_, ?_, ?_⟩ <;> simp [hM, hL, hO]
  · have hv : validateGraph nodes edges = ⟨false, ["Нет узла Optimizer"]⟩ := by
      simp [validateGraph, hM, hL, hO]
    rw [hv]
    refine ⟨?_, ?_, ?_, ?_, ?_⟩ <;> simp [hM, hL, hO]
  · by_cases hLen : (topologicalSort nodes edges).length = nodes.length
    · have hv : validateGraph nodes edges = ⟨true, []⟩ := by
        simp [validateGraph, hM, hL, hO, hLen]
      rw [hv]
      refine ⟨?_, ?_, ?_, ?_, ?_⟩ <;> simp [hM, hL, hO, hLen]
    · have hv : validateGraph nodes edges = ⟨false, ["Обнаружен цикл в графе"]⟩ := by
        simp [validateGraph, hM, hL, hO, hLen]
      rw [hv]
      refine ⟨?_, ?_, ?_, ?_, ?_⟩ <;> simp [hM, hL, hO, hLen]

end MLCanvas
